import Mathlib

/-!
# Verification of the YR-Trans pipeline core

Shallow embedding, translated from the repository source, of:

* the checkpointed stage sequencer `ProcessThread.run` together with
  `ProcessThread.load_checkpoint` / `ProcessThread.save_checkpoint`
  (src/YR_Trans/trans_hub.py);
* the per-sample alignment loop `ProcessThread.hisat2_align`
  (src/YR_Trans/trans_hub.py);
* the pairwise condition enumeration inside
  `ProcessThread.pydeseq2_analysis` (src/YR_Trans/trans_hub.py);
* the expression quantifier `FeatureCounts_wrapper._calculate_expression_values`
  and the zero-row filter `_filter_zero_count_rows`
  (src/YR_Trans/analysis.py).

Machine arithmetic of the Python/pandas code is modelled with exact
rationals; the IEEE-754 special values that pandas produces on division
by zero are modelled explicitly by the carrier type `PVal`
(finite rational, +inf, -inf, NaN).
-/

namespace YRTrans

/-! ## Checkpoint store

The checkpoint is a JSON object `{stage_name: bool}`; we embed it as an
association list with string keys.  `cpGet` is `checkpoint.get(key, False)`;
`cpSet` is `checkpoint[key] = b` (replace the binding if present, else append).
-/

abbrev Checkpoint := List (String × Bool)

/-- `checkpoint.get(key, False)` of `ProcessThread.run`. -/
def cpGet (cp : Checkpoint) (k : String) : Bool :=
  match cp with
  | [] => false
  | (k', v) :: rest => if k' = k then v else cpGet rest k

/-- `checkpoint[key] = b` (dict assignment). -/
def cpSet (cp : Checkpoint) (k : String) (b : Bool) : Checkpoint :=
  match cp with
  | [] => [(k, b)]
  | (k', v) :: rest => if k' = k then (k, b) :: rest else (k', v) :: cpSet rest k b

/-! ## Stage sequencer (`ProcessThread.run`)

Three stages in fixed order; a stage whose checkpoint flag is true is
skipped; otherwise the stage method is invoked, and on success the flag is
set and the checkpoint saved before the next stage; on failure (the stage
method emitted its error and returned `False`) `run` returns at once.
The observable behaviour is recorded as a trace of events.
-/

inductive Stage
  | align
  | count
  | diffexpr
deriving DecidableEq, Repr

/-- Checkpoint key of each stage, exactly the strings of `ProcessThread.run`. -/
def stageKey : Stage → String
  | .align => "hisat2_align"
  | .count => "feature_counts"
  | .diffexpr => "pydeseq2_analysis"

/-- Position of the stage in the fixed execution order. -/
def stageIdx : Stage → Nat
  | .align => 0
  | .count => 1
  | .diffexpr => 2

def stageOrder : List Stage := [.align, .count, .diffexpr]

inductive RunEvent
  | invoke (s : Stage)
  | persist (cp : Checkpoint)
  | fail (s : Stage)
  | finished
deriving DecidableEq, Repr

/-- One stage of `ProcessThread.run`: skip when flagged, otherwise invoke;
on success flag the stage and save the checkpoint; on failure stop.
Returns (current checkpoint as persisted, events, go on?). -/
def runStage (s : Stage) (ok : Stage → Bool) (cp : Checkpoint) :
    Checkpoint × List RunEvent × Bool :=
  if cpGet cp (stageKey s) then (cp, [], true)
  else if ok s then
    let cp' := cpSet cp (stageKey s) true
    (cp', [.invoke s, .persist cp'], true)
  else (cp, [.invoke s, .fail s], false)

/-- `ProcessThread.run`: the three stages in fixed order, stopping at the
first failure, emitting `finished` when all stages passed or were skipped.
Result: final persisted checkpoint and the event trace. -/
def runPipeline (cp0 : Checkpoint) (ok : Stage → Bool) :
    Checkpoint × List RunEvent :=
  match runStage .align ok cp0 with
  | (cp1, e1, false) => (cp1, e1)
  | (cp1, e1, true) =>
    match runStage .count ok cp1 with
    | (cp2, e2, false) => (cp2, e1 ++ e2)
    | (cp2, e2, true) =>
      match runStage .diffexpr ok cp2 with
      | (cp3, e3, false) => (cp3, e1 ++ e2 ++ e3)
      | (cp3, e3, true) => (cp3, e1 ++ e2 ++ e3 ++ [.finished])

/-- The stages actually invoked, in order. -/
def executedStages (tr : List RunEvent) : List Stage :=
  tr.filterMap fun e =>
    match e with
    | .invoke s => some s
    | _ => none

/-- The checkpoint of the last `persist` event of the trace, or the initial
(on-disk) checkpoint when nothing was persisted. -/
def lastPersisted (tr : List RunEvent) (dflt : Checkpoint) : Checkpoint :=
  (tr.filterMap fun e =>
    match e with
    | .persist cp => some cp
    | _ => none).getLast?.getD dflt

/-- `ProcessThread.load_checkpoint`: `none` models a missing checkpoint
file, `some (.error e)` a file whose parse raised (the exception is caught,
a console message emitted, and `{}` returned), `some (.ok cp)` a parsed
file. -/
def loadCheckpoint (file : Option (Except String Checkpoint)) : Checkpoint :=
  match file with
  | none => []
  | some (.error _) => []
  | some (.ok cp) => cp

/-! ## Per-sample alignment loop (`ProcessThread.hisat2_align`)

For each sample in list order: run the aligner (exit status
`alignExit`); on non-zero status emit the error and return `False` at
once.  Then run `samtools sort` (exit status `sortExit`); on non-zero
status emit the error and return `False` at once.  Then remove the
intermediate SAM file; a removal failure only emits a warning.  The
cooperative-cancellation poll (`self.is_running`) is modelled in its
not-cancelled state, which is the state the claims quantify over.
-/

/-- Outcome of the three external effects performed for one sample. -/
structure SampleOutcome where
  alignExit : Int
  sortExit : Int
  removeOk : Bool
deriving DecidableEq, Repr

inductive AlignEvent
  | alignRun (name : String)
  | sortRun (name : String)
  | removeWarn (name : String)
  | errAlign (name : String)
  | errSort (name : String)
deriving DecidableEq, Repr

/-- Events of one fully successful sample iteration. -/
def sampleOkEvents (p : String × SampleOutcome) : List AlignEvent :=
  [.alignRun p.1, .sortRun p.1] ++ (if p.2.removeOk then [] else [.removeWarn p.1])

/-- Events of the iteration in which a tool call fails. -/
def sampleFailEvents (p : String × SampleOutcome) : List AlignEvent :=
  if p.2.alignExit ≠ 0 then [.alignRun p.1, .errAlign p.1]
  else [.alignRun p.1, .sortRun p.1, .errSort p.1]

/-- `ProcessThread.hisat2_align`'s per-sample loop: returns the stage's
boolean result and the trace of tool invocations, warnings and errors. -/
def hisat2Align : List (String × SampleOutcome) → Bool × List AlignEvent
  | [] => (true, [])
  | (n, r) :: rest =>
    if r.alignExit ≠ 0 then (false, [.alignRun n, .errAlign n])
    else if r.sortExit ≠ 0 then (false, [.alignRun n, .sortRun n, .errSort n])
    else
      let pre := [AlignEvent.alignRun n, .sortRun n] ++
        (if r.removeOk then [] else [.removeWarn n])
      let res := hisat2Align rest
      (res.1, pre ++ res.2)

/-- Sample names whose alignment call was issued, in order. -/
def alignedNames (tr : List AlignEvent) : List String :=
  tr.filterMap fun e =>
    match e with
    | .alignRun n => some n
    | _ => none

/-! ## Pairwise condition enumeration (`ProcessThread.pydeseq2_analysis`)

The code builds `conditions = list(set(design_df["condition"]))` and then
iterates `for i in range(n): for j in range(i+1, n): (conditions[i],
conditions[j])`.  `enumeratePairs` is that double loop on the materialised
list; the order of the list itself is whatever the Python set yields.
-/

def enumeratePairs : List String → List (String × String)
  | [] => []
  | c :: rest => rest.map (fun d => (c, d)) ++ enumeratePairs rest

/-! ## Expression quantifier (`FeatureCounts_wrapper._calculate_expression_values`)

pandas float arithmetic is embedded as exact rationals extended with the
IEEE special values that division by zero produces.
-/

/-- A pandas float cell: a finite (exact rational) value, `+inf`, `-inf`
or `NaN`. -/
inductive PVal
  | fin (q : ℚ)
  | pinf
  | ninf
  | nan
deriving DecidableEq, Repr

/-- IEEE addition on `PVal` (used for the per-column sums). -/
def padd : PVal → PVal → PVal
  | .fin a, .fin b => .fin (a + b)
  | .nan, _ => .nan
  | _, .nan => .nan
  | .pinf, .ninf => .nan
  | .ninf, .pinf => .nan
  | .pinf, _ => .pinf
  | _, .pinf => .pinf
  | .ninf, _ => .ninf
  | _, .ninf => .ninf

/-- IEEE division on `PVal`: a finite value divided by (finite, non-zero)
is exact; `x/0` is `NaN` for `x = 0` and a signed infinity otherwise
(the divisors produced by the quantifier are non-negative, i.e. IEEE `+0`). -/
def pdiv : PVal → PVal → PVal
  | .fin a, .fin b =>
      if b ≠ 0 then .fin (a / b)
      else if a = 0 then .nan
      else if 0 < a then .pinf
      else .ninf
  | .nan, _ => .nan
  | _, .nan => .nan
  | .pinf, .pinf => .nan
  | .pinf, .ninf => .nan
  | .ninf, .pinf => .nan
  | .ninf, .ninf => .nan
  | .pinf, .fin b => if b < 0 then .ninf else .pinf
  | .ninf, .fin b => if b < 0 then .pinf else .ninf
  | .fin _, .pinf => .fin 0
  | .fin _, .ninf => .fin 0

/-- Sum of a column of pandas floats (`DataFrame.sum`). -/
def psum (l : List PVal) : PVal := l.foldr padd (.fin 0)

/-- The numeric sample columns of the loaded count table: one gene id per
row, one rational count row per gene (the values after
`apply(pd.to_numeric, errors="coerce").fillna(0)`), and the column count
of the DataFrame. -/
structure CountData where
  nSamples : Nat
  geneIds : List String
  counts : List (List ℚ)
deriving Repr

inductive ExprType
  | TPM
  | FPKM
deriving DecidableEq, Repr

/-- Lookup in the gene-length dict (`gene_lengths[gene_id_str]` after the
`gene_id_str in gene_lengths` test). -/
def lookupLen (g : String) : List (String × ℚ) → Option ℚ
  | [] => none
  | (k, len) :: rest => if k = g then some len else lookupLen g rest

/-- The matching loop of `_calculate_expression_values`: walk the gene ids
in row order, keep a gene (with its length and count row) exactly when the
id is a key of the gene-length dict. -/
def matchedGenes (cd : CountData) (L : List (String × ℚ)) :
    List (String × ℚ × List ℚ) :=
  (cd.geneIds.zip cd.counts).filterMap fun gr =>
    match lookupLen gr.1 L with
    | some len => some (gr.1, len, gr.2)
    | none => none

/-- Column `j` of a matrix held as a list of rows. -/
def colGet (rows : List (List PVal)) (j : Nat) : List PVal :=
  rows.map fun r => r.getD j (.fin 0)

/-- Per-column sums (`DataFrame.sum(axis=0)`) of an `n`-column matrix. -/
def colSums (n : Nat) (rows : List (List PVal)) : List PVal :=
  (List.range n).map fun j => psum (colGet rows j)

/-- Per-column rational sums of the raw count matrix
(`count_data.sum(axis=0)`; the raw counts are finite). -/
def qColSums (n : Nat) (rows : List (List ℚ)) : List ℚ :=
  (List.range n).map fun j => (rows.map fun r => r.getD j 0).sum

/-- `rpk = valid_count_data.div(lengths / 1000, axis=0)`. -/
def rpkRows (valid : List (String × ℚ × List ℚ)) : List (List PVal) :=
  valid.map fun v => v.2.2.map fun c => pdiv (.fin c) (.fin (v.2.1 / 1000))

/-- `df.div(denoms, axis=1)`: divide each row elementwise by the
per-column divisors. -/
def divCols (rows : List (List PVal)) (denoms : List PVal) : List (List PVal) :=
  rows.map fun r => List.zipWith pdiv r denoms

/-- `FeatureCounts_wrapper._calculate_expression_values`: match genes to
lengths, raise when no gene matches, then compute TPM
(`rpk.div(rpk.sum(axis=0) / 1e6, axis=1)`) or FPKM
(`rpk.div(count_data.sum(axis=0) / 1e6, axis=1)`, the totals taken over
ALL rows of the count table, matched or not).  The result pairs the
retained gene ids with the value rows. -/
def calcExpressionValues (et : ExprType) (cd : CountData) (L : List (String × ℚ)) :
    Except String (List String × List (List PVal)) :=
  let valid := matchedGenes cd L
  if valid.isEmpty then
    .error "No matching genes found between count data and annotation file"
  else
    let names := valid.map fun v => v.1
    let rpk := rpkRows valid
    match et with
    | .TPM =>
        let denoms := (colSums cd.nSamples rpk).map fun s => pdiv s (.fin 1000000)
        .ok (names, divCols rpk denoms)
    | .FPKM =>
        let denoms := (qColSums cd.nSamples cd.counts).map fun t => PVal.fin (t / 1000000)
        .ok (names, divCols rpk denoms)

/-- Modelled from the claim's comparison baseline (not a function of the
repository): FPKM with the per-sample totals taken over the RETAINED
(inner-joined) rows only, instead of over all rows of the count table. -/
def fpkmRetainedOnly (cd : CountData) (L : List (String × ℚ)) :
    Except String (List String × List (List PVal)) :=
  let valid := matchedGenes cd L
  if valid.isEmpty then
    .error "No matching genes found between count data and annotation file"
  else
    let names := valid.map fun v => v.1
    let rpk := rpkRows valid
    let denoms := (qColSums cd.nSamples (valid.map fun v => v.2.2)).map
      fun t => PVal.fin (t / 1000000)
    .ok (names, divCols rpk denoms)

/-- A cell that `_filter_zero_count_rows` treats as zero: the filter
re-coerces with `fillna(0)`, so `NaN` counts as zero. -/
def zeroish : PVal → Bool
  | .fin q => q = 0
  | .nan => true
  | _ => false

/-- `FeatureCounts_wrapper._filter_zero_count_rows`: drop every row whose
sample values are all (treated as) zero. -/
def filterZeroRows (genes : List String) (rows : List (List PVal)) :
    List String × List (List PVal) :=
  let kept := (genes.zip rows).filter fun gr => !(gr.2.all zeroish)
  (kept.map fun gr => gr.1, kept.map fun gr => gr.2)

/-- Total RPK of sample column `j` over the retained genes, as an exact
rational (the quantity whose non-vanishing the TPM claims hypothesise). -/
def totalRPK (cd : CountData) (L : List (String × ℚ)) (j : Nat) : ℚ :=
  ((matchedGenes cd L).map fun v => v.2.2.getD j 0 / (v.2.1 / 1000)).sum

/-! ## Auxiliary lemmas -/

theorem cpGet_cpSet_self (cp : Checkpoint) (k : String) (b : Bool) :
    cpGet (cpSet cp k b) k = b := by
  induction cp with
  | nil => simp [cpGet, cpSet]
  | cons hd tl ih =>
    obtain ⟨k', v⟩ := hd
    by_cases h : k' = k <;> simp [cpGet, cpSet, h, ih]

theorem cpGet_cpSet_ne (cp : Checkpoint) (k k' : String) (b : Bool) (h : k' ≠ k) :
    cpGet (cpSet cp k b) k' = cpGet cp k' := by
  have h2 : k ≠ k' := fun hh => h hh.symm
  induction cp with
  | nil => simp [cpGet, cpSet, h2]
  | cons hd tl ih =>
    obtain ⟨k₀, v⟩ := hd
    by_cases h0 : k₀ = k
    · subst h0
      simp [cpGet, cpSet, h2]
    · simp only [cpSet, if_neg h0]
      by_cases h1 : k₀ = k' <;> simp [cpGet, h1, ih]

theorem padd_fin (a b : ℚ) : padd (.fin a) (.fin b) = .fin (a + b) := rfl

theorem psum_map_fin (l : List ℚ) : psum (l.map PVal.fin) = .fin l.sum := by
  induction l with
  | nil => rfl
  | cons a l ih => simp [psum, List.foldr] at ih ⊢; simp [ih, padd_fin]

theorem pdiv_fin_of_ne (a b : ℚ) (hb : b ≠ 0) :
    pdiv (.fin a) (.fin b) = .fin (a / b) := by
  simp [pdiv, hb]

theorem list_sum_map_div (l : List ℚ) (c : ℚ) :
    (l.map fun x => x / c).sum = l.sum / c := by
  induction l with
  | nil => simp
  | cons a l ih => simp [ih, add_div]

theorem mem_enumeratePairs (cs : List String) (p : String × String)
    (hp : p ∈ enumeratePairs cs) : p.1 ∈ cs ∧ p.2 ∈ cs := by
  induction cs with
  | nil => simp [enumeratePairs] at hp
  | cons c rest ih =>
    simp only [enumeratePairs, List.mem_append, List.mem_map] at hp
    rcases hp with ⟨d, hd, rfl⟩ | hp
    · exact ⟨by simp, by simp [hd]⟩
    · exact ⟨by simp [(ih hp).1], by simp [(ih hp).2]⟩

theorem countP_string_eq (b : String) (l : List String) :
    (l.countP fun d => decide (d = b)) = l.count b := by
  have : (fun d => decide (d = b)) = fun d => d == b := by
    funext d
    by_cases h : d = b <;> simp [h]
  simp [List.count, this]

theorem hisat2Align_all_ok (samples : List (String × SampleOutcome))
    (h : ∀ p ∈ samples, p.2.alignExit = 0 ∧ p.2.sortExit = 0) :
    hisat2Align samples = (true, (samples.map sampleOkEvents).flatten) := by
  induction samples with
  | nil => rfl
  | cons p rest ih =>
    obtain ⟨n, r⟩ := p
    have h1 : r.alignExit = 0 := (h (n, r) (by simp)).1
    have h2 : r.sortExit = 0 := (h (n, r) (by simp)).2
    have hrest := ih fun q hq => h q (by simp [hq])
    simp [hisat2Align, h1, h2, sampleOkEvents, hrest]

theorem alignedNames_append (t1 t2 : List AlignEvent) :
    alignedNames (t1 ++ t2) = alignedNames t1 ++ alignedNames t2 := by
  simp [alignedNames]

theorem alignedNames_sampleOkEvents (p : String × SampleOutcome) :
    alignedNames (sampleOkEvents p) = [p.1] := by
  by_cases h : p.2.removeOk <;> simp [sampleOkEvents, alignedNames, h]

theorem alignedNames_ok_join (pre : List (String × SampleOutcome)) :
    alignedNames ((pre.map sampleOkEvents).flatten) = pre.map Prod.fst := by
  induction pre with
  | nil => rfl
  | cons p rest ih =>
    simp [List.flatten, alignedNames_append, alignedNames_sampleOkEvents, ih]

theorem alignedNames_sampleFailEvents (p : String × SampleOutcome) :
    alignedNames (sampleFailEvents p) = [p.1] := by
  by_cases h : p.2.alignExit ≠ 0 <;> simp [sampleFailEvents, alignedNames, h]

theorem executed_of_all_ok (cp : Checkpoint) (ok : Stage → Bool)
    (hok : ∀ s, ok s = true) :
    executedStages (runPipeline cp ok).2 =
      stageOrder.filter fun s => !cpGet cp (stageKey s) := by
  have ha := hok .align
  have hc := hok .count
  have hd := hok .diffexpr
  by_cases fa : cpGet cp (stageKey .align) <;>
    by_cases fc : cpGet cp (stageKey .count) <;>
      by_cases fd : cpGet cp (stageKey .diffexpr) <;>
        simp_all [runPipeline, runStage, executedStages, stageOrder, stageKey,
          cpGet_cpSet_ne, cpGet_cpSet_self]

theorem align_not_executed (cp : Checkpoint) (ok : Stage → Bool)
    (h1 : cpGet cp (stageKey .align) = true) :
    Stage.align ∉ executedStages (runPipeline cp ok).2 := by
  by_cases fc : cpGet cp (stageKey .count) <;>
    by_cases fd : cpGet cp (stageKey .diffexpr) <;>
      cases hc : ok .count <;>
        cases hd : ok .diffexpr <;>
          simp_all [runPipeline, runStage, executedStages, stageKey,
            cpGet_cpSet_ne, cpGet_cpSet_self]

theorem runPipeline_final_eq_lastPersisted (cp : Checkpoint) (ok : Stage → Bool) :
    (runPipeline cp ok).1 = lastPersisted (runPipeline cp ok).2 cp := by
  by_cases fa : cpGet cp (stageKey .align) <;> cases hoa : ok .align <;>
    by_cases fc : cpGet cp (stageKey .count) <;> cases hoc : ok .count <;>
      by_cases fd : cpGet cp (stageKey .diffexpr) <;> cases hod : ok .diffexpr <;>
        simp_all [runPipeline, runStage, lastPersisted, stageKey,
          cpGet_cpSet_ne, cpGet_cpSet_self]

set_option maxHeartbeats 1000000 in
theorem runPipeline_fail_getLast (cp : Checkpoint) (ok : Stage → Bool) (s : Stage)
    (h : RunEvent.fail s ∈ (runPipeline cp ok).2) :
    (runPipeline cp ok).2.getLast? = some (.fail s) := by
  by_cases fa : cpGet cp (stageKey .align) <;> cases hoa : ok .align <;>
    by_cases fc : cpGet cp (stageKey .count) <;> cases hoc : ok .count <;>
      by_cases fd : cpGet cp (stageKey .diffexpr) <;> cases hod : ok .diffexpr <;>
        simp_all [runPipeline, runStage, stageKey, cpGet_cpSet_ne, cpGet_cpSet_self]

set_option maxHeartbeats 1000000 in
theorem runPipeline_fail_flags (cp : Checkpoint) (ok : Stage → Bool) (s : Stage)
    (h : RunEvent.fail s ∈ (runPipeline cp ok).2) (t : Stage)
    (ht : stageIdx s ≤ stageIdx t) :
    cpGet (runPipeline cp ok).1 (stageKey t) = cpGet cp (stageKey t) := by
  by_cases fa : cpGet cp (stageKey .align) <;> cases hoa : ok .align <;>
    by_cases fc : cpGet cp (stageKey .count) <;> cases hoc : ok .count <;>
      by_cases fd : cpGet cp (stageKey .diffexpr) <;> cases hod : ok .diffexpr <;>
        cases t <;>
          simp_all [runPipeline, runStage, stageIdx, stageKey, cpGet_cpSet_ne,
            cpGet_cpSet_self]

set_option maxHeartbeats 1000000 in
theorem runPipeline_persist_after_invoke (cp : Checkpoint) (ok : Stage → Bool)
    (i : Nat) (s : Stage) (hi : (runPipeline cp ok).2[i]? = some (.invoke s))
    (hoks : ok s = true) :
    ∃ cp', (runPipeline cp ok).2[i + 1]? = some (.persist cp') ∧
      cpGet cp' (stageKey s) = true := by
  by_cases fa : cpGet cp (stageKey .align) <;> cases hoa : ok .align <;>
    by_cases fc : cpGet cp (stageKey .count) <;> cases hoc : ok .count <;>
      by_cases fd : cpGet cp (stageKey .diffexpr) <;> cases hod : ok .diffexpr <;>
        simp_all [runPipeline, runStage, stageKey, cpGet_cpSet_ne,
          cpGet_cpSet_self] <;>
        (rcases i with _ | _ | _ | _ | _ | _ | _ | i <;>
          simp_all [cpGet_cpSet_ne, cpGet_cpSet_self] <;>
          (try cases hi) <;>
          (try simp_all [stageKey, cpGet_cpSet_ne, cpGet_cpSet_self]))

/-! ## Claim theorems -/

/-- **C2** — TPM column-sum invariant: for every count matrix and
gene-length table whose inner join is non-empty (with positive gene
lengths, as produced by summing GTF feature spans) and every sample
column whose total RPK over the retained genes is non-zero, the TPM
column that `_calculate_expression_values` returns consists of finite
values summing exactly to 1,000,000 in exact rational arithmetic. -/
theorem tpm_column_sum (cd : CountData) (L : List (String × ℚ)) (j : Nat)
    (hne : matchedGenes cd L ≠ [])
    (hrow : ∀ v ∈ matchedGenes cd L, v.2.2.length = cd.nSamples)
    (hlen : ∀ v ∈ matchedGenes cd L, 0 < v.2.1)
    (hj : j < cd.nSamples)
    (hS : totalRPK cd L j ≠ 0) :
    ∃ rows, calcExpressionValues .TPM cd L =
        .ok ((matchedGenes cd L).map fun v => v.1, rows) ∧
      psum (colGet rows j) = .fin 1000000 := by
  set valid := matchedGenes cd L with hvalid
  set n := cd.nSamples with hn
  -- column j of the RPK matrix, as exact rationals
  have hcol : colGet (rpkRows valid) j =
      (valid.map fun v => v.2.2.getD j 0 / (v.2.1 / 1000)).map PVal.fin := by
    unfold colGet rpkRows
    rw [List.map_map, List.map_map]
    apply List.map_congr_left
    intro v hv
    have hvl : v.2.2.length = n := hrow v hv
    have hpos : (0 : ℚ) < v.2.1 := hlen v hv
    have hnz : v.2.1 / 1000 ≠ 0 := by positivity
    have hjv : j < v.2.2.length := by rw [hvl]; exact hj
    simp only [Function.comp]
    rw [List.getD_eq_getElem?_getD, List.getElem?_map,
      List.getElem?_eq_getElem (by simpa using hjv)]
    simp only [Option.map_some', Option.getD_some]
    rw [pdiv_fin_of_ne _ _ hnz]
    rw [List.getD_eq_getElem?_getD, List.getElem?_eq_getElem hjv]
    simp
  have hsumcol : psum (colGet (rpkRows valid) j) = .fin (totalRPK cd L j) := by
    rw [hcol, psum_map_fin]
    rfl
  -- the per-sample divisor at column j
  set dn := (colSums n (rpkRows valid)).map fun s => pdiv s (.fin 1000000) with hdn
  have hdlen : dn.length = n := by
    simp [hdn, colSums]
  have hden : dn[j]? = some (.fin (totalRPK cd L j / 1000000)) := by
    rw [hdn, List.getElem?_map]
    have h1 : (colSums n (rpkRows valid))[j]? =
        some (psum (colGet (rpkRows valid) j)) := by
      unfold colSums
      rw [List.getElem?_map, List.getElem?_range hj]
      simp
    rw [h1]
    simp only [Option.map_some']
    rw [hsumcol, pdiv_fin_of_ne _ _ (by norm_num)]
  have hSdiv : totalRPK cd L j / 1000000 ≠ 0 := div_ne_zero hS (by norm_num)
  refine ⟨divCols (rpkRows valid) dn, ?_, ?_⟩
  · unfold calcExpressionValues
    rw [← hvalid, ← hn]
    rw [if_neg (by simpa using hne)]
  · have hrows : colGet (divCols (rpkRows valid) dn) j =
        ((valid.map fun v => v.2.2.getD j 0 / (v.2.1 / 1000)).map
          fun q => q / (totalRPK cd L j / 1000000)).map PVal.fin := by
      unfold colGet divCols rpkRows
      simp only [List.map_map]
      apply List.map_congr_left
      intro v hv
      have hvl : v.2.2.length = n := hrow v hv
      have hpos : (0 : ℚ) < v.2.1 := hlen v hv
      have hnz : v.2.1 / 1000 ≠ 0 := by positivity
      have hjv : j < v.2.2.length := by rw [hvl]; exact hj
      have hflen : (v.2.2.map fun c => pdiv (.fin c) (.fin (v.2.1 / 1000))).length = n := by
        simp [hvl]
      have hzl : (List.zipWith pdiv
          (v.2.2.map fun c => pdiv (.fin c) (.fin (v.2.1 / 1000))) dn).length = n := by
        rw [List.length_zipWith, hflen, hdlen, Nat.min_self]
      have hdg : ∀ hb : j < dn.length, dn[j] =
          PVal.fin (totalRPK cd L j / 1000000) := by
        intro hb
        have h2 := hden
        rw [List.getElem?_eq_getElem hb] at h2
        exact Option.some.inj h2
      simp only [Function.comp]
      rw [List.getD_eq_getElem?_getD, List.getElem?_eq_getElem (by rw [hzl]; exact hj),
        Option.getD_some, List.getElem_zipWith, List.getElem_map, hdg,
        pdiv_fin_of_ne _ _ hnz, pdiv_fin_of_ne _ _ hSdiv,
        List.getD_eq_getElem?_getD, List.getElem?_eq_getElem hjv]
      simp
    rw [hrows, psum_map_fin]
    have hsum : ((valid.map fun v => v.2.2.getD j 0 / (v.2.1 / 1000)).map
        fun q => q / (totalRPK cd L j / 1000000)).sum =
        totalRPK cd L j / (totalRPK cd L j / 1000000) := by
      rw [list_sum_map_div]
      rfl
    rw [hsum, div_div_eq_mul_div, mul_comm, mul_div_assoc, div_self hS, mul_one]

/-- Witness for C2: one gene of length 1000 bp with count 2 in a single
sample; its TPM column sums to exactly 1,000,000. -/
theorem tpm_column_sum_witness :
    ∃ rows, calcExpressionValues .TPM ⟨1, ["A"], [[2]]⟩ [("A", 1000)] =
        .ok ((matchedGenes ⟨1, ["A"], [[2]]⟩ [("A", 1000)]).map fun v => v.1, rows) ∧
      psum (colGet rows 0) = .fin 1000000 :=
  tpm_column_sum ⟨1, ["A"], [[2]]⟩ [("A", 1000)] 0
    (by norm_num [matchedGenes, lookupLen, List.filterMap_cons])
    (by
      intro v hv
      have hv' : v = ("A", (1000 : ℚ), [(2 : ℚ)]) := by
        simpa [matchedGenes, lookupLen, List.filterMap_cons] using hv
      simp [hv'])
    (by
      intro v hv
      have hv' : v = ("A", (1000 : ℚ), [(2 : ℚ)]) := by
        simpa [matchedGenes, lookupLen, List.filterMap_cons] using hv
      simp [hv'])
    (by norm_num)
    (by norm_num [totalRPK, matchedGenes, lookupLen, List.filterMap_cons])

theorem matchedGenes_names_mem (cd : CountData) (L : List (String × ℚ))
    (hl : cd.geneIds.length ≤ cd.counts.length) (g : String) :
    (g ∈ (matchedGenes cd L).map fun v => v.1) ↔
      g ∈ cd.geneIds ∧ lookupLen g L ≠ none := by
  constructor
  · intro hg
    rw [List.mem_map] at hg
    obtain ⟨v, hv, rfl⟩ := hg
    rw [matchedGenes, List.mem_filterMap] at hv
    obtain ⟨gr, hgr, hfg⟩ := hv
    obtain ⟨g1, row⟩ := gr
    cases hlk : lookupLen g1 L with
    | none => rw [hlk] at hfg; simp at hfg
    | some len =>
      rw [hlk] at hfg
      simp only [Option.some.injEq] at hfg
      subst hfg
      exact ⟨(List.of_mem_zip hgr).1, by simp [hlk]⟩
  · rintro ⟨hg, hlk⟩
    obtain ⟨len, hlen⟩ := Option.ne_none_iff_exists.mp hlk
    rw [List.mem_iff_getElem] at hg
    obtain ⟨i, hi, hgi⟩ := hg
    have hiz : i < (cd.geneIds.zip cd.counts).length := by
      rw [List.length_zip]
      exact lt_min hi (lt_of_lt_of_le hi hl)
    have hic : i < cd.counts.length := lt_of_lt_of_le hi hl
    have hzi : (cd.geneIds.zip cd.counts)[i] = (g, cd.counts[i]) := by
      rw [List.getElem_zip, hgi]
    rw [List.mem_map]
    refine ⟨(g, len, cd.counts[i]), ?_, rfl⟩
    rw [matchedGenes, List.mem_filterMap]
    refine ⟨(g, cd.counts[i]), ?_, ?_⟩
    · rw [← hzi]
      exact List.getElem_mem hiz
    · simp [← hlen]

/-- **C6** — gene-set inner join: whenever the quantifier returns a
result (for TPM or FPKM alike), the returned gene list contains a gene
exactly when it appears in the count matrix and has an entry in the
gene-length table; and the quantifier returns its explicit
"no matching genes" error exactly when no gene of the count matrix has a
length, i.e. when the inner join is empty. -/
theorem expression_inner_join (et : ExprType) (cd : CountData) (L : List (String × ℚ))
    (hl : cd.geneIds.length ≤ cd.counts.length) :
    (∀ names rows, calcExpressionValues et cd L = .ok (names, rows) →
      ∀ g : String, g ∈ names ↔ g ∈ cd.geneIds ∧ lookupLen g L ≠ none) ∧
    ((∃ e, calcExpressionValues et cd L = .error e) ↔
      ∀ g ∈ cd.geneIds, lookupLen g L = none) := by
  have hiff : matchedGenes cd L = [] ↔ ∀ g ∈ cd.geneIds, lookupLen g L = none := by
    constructor
    · intro h g hg
      by_contra hne
      have hmem := (matchedGenes_names_mem cd L hl g).mpr ⟨hg, hne⟩
      rw [h] at hmem
      simp at hmem
    · intro h
      rw [List.eq_nil_iff_forall_not_mem]
      intro v hv
      rw [matchedGenes, List.mem_filterMap] at hv
      obtain ⟨gr, hgr, hfg⟩ := hv
      obtain ⟨g1, row⟩ := gr
      have h1 : g1 ∈ cd.geneIds := (List.of_mem_zip hgr).1
      rw [h g1 h1] at hfg
      simp at hfg
  constructor
  · intro names rows hok g
    unfold calcExpressionValues at hok
    by_cases hv : (matchedGenes cd L).isEmpty
    · rw [if_pos hv] at hok
      cases hok
    · rw [if_neg hv] at hok
      have hnames : names = (matchedGenes cd L).map fun v => v.1 := by
        cases et <;> (simp only at hok; exact ((Prod.mk.injEq _ _ _ _).mp
          (Except.ok.inj hok)).1.symm)
      rw [hnames]
      exact matchedGenes_names_mem cd L hl g
  · constructor
    · rintro ⟨e, he⟩
      rw [← hiff]
      by_contra hne
      have hv : ¬(matchedGenes cd L).isEmpty := by
        simpa [List.isEmpty_iff] using hne
      unfold calcExpressionValues at he
      rw [if_neg hv] at he
      cases et <;> simp only at he <;> cases he
    · intro h
      have hv : (matchedGenes cd L).isEmpty := by
        simp [List.isEmpty_iff, hiff.mpr h]
      refine ⟨"No matching genes found between count data and annotation file", ?_⟩
      unfold calcExpressionValues
      rw [if_pos hv]

/-- Witness for C6: gene A is retained, gene B (counted but absent from
the length table) is dropped; the inner join being non-empty, no error is
returned. -/
theorem expression_inner_join_witness :
    (∀ names rows, calcExpressionValues .TPM ⟨1, ["A", "B"], [[1], [2]]⟩
        [("A", 100)] = .ok (names, rows) →
      ∀ g : String, g ∈ names ↔ g ∈ ["A", "B"] ∧ lookupLen g [("A", 100)] ≠ none) ∧
    ((∃ e, calcExpressionValues .TPM ⟨1, ["A", "B"], [[1], [2]]⟩
        [("A", 100)] = .error e) ↔
      ∀ g ∈ ["A", "B"], lookupLen g [("A", (100 : ℚ))] = none) :=
  expression_inner_join .TPM ⟨1, ["A", "B"], [[1], [2]]⟩ [("A", 100)] (by norm_num)


theorem list_sum_filter_split {α : Type} (p : α → Bool) (f : α → ℚ) (l : List α) :
    ((l.filter p).map f).sum + ((l.filter fun a => !p a).map f).sum = (l.map f).sum := by
  induction l with
  | nil => simp
  | cons a l ih =>
    by_cases h : p a <;> simp [List.filter_cons, h] <;> linarith [ih]

theorem getD_nonneg_of (r : List ℚ) (j : Nat) (h : ∀ c ∈ r, 0 ≤ c) :
    0 ≤ r.getD j 0 := by
  rw [List.getD_eq_getElem?_getD]
  cases hj : r[j]? with
  | none => simp
  | some c =>
    simp only [Option.getD_some]
    exact h c (List.getElem?_mem hj)

theorem sum_matched_rows (L : List (String × ℚ)) (j : Nat)
    (zl : List (String × List ℚ)) :
    ((zl.filterMap fun gr =>
        match lookupLen gr.1 L with
        | some len => some (gr.1, len, gr.2)
        | none => none).map fun v => v.2.2.getD j 0).sum =
      ((zl.filter fun p => (lookupLen p.1 L).isSome).map fun p => p.2.getD j 0).sum := by
  induction zl with
  | nil => rfl
  | cons a l ih =>
    obtain ⟨g, row⟩ := a
    cases h : lookupLen g L with
    | none =>
      simp only [List.filterMap_cons, List.filter_cons, h, Option.isSome_none,
        Bool.false_eq_true, if_false]
      exact ih
    | some len =>
      simp only [List.filterMap_cons, List.filter_cons, h, Option.isSome_some,
        if_true, List.map_cons, List.sum_cons]
      rw [ih]

/-- **C9 (amended)** — FPKM denominator scope: the per-sample FPKM
denominator of `_calculate_expression_values` is the raw-count total over
ALL rows of the loaded count matrix, including genes the inner join drops,
while the TPM denominator sums RPK over the retained genes only; hence on
any input where some counted gene lacks a length entry and has a positive
count in sample `j` (all counts non-negative), every retained gene with a
positive length and a POSITIVE count in that sample gets a strictly
smaller FPKM value than the same computation restricted to the retained
genes would give.  (For a retained gene whose count is zero the two
values are both zero — see the counterexample — so the claim's
"all values strictly smaller" needs this positivity restriction.) -/
theorem fpkm_denominator_scope (cd : CountData) (L : List (String × ℚ)) (j : Nat)
    (hnonneg : ∀ r ∈ cd.counts, ∀ c ∈ r, 0 ≤ c)
    (hleq : cd.geneIds.length = cd.counts.length)
    (hne : matchedGenes cd L ≠ [])
    (hrow : ∀ v ∈ matchedGenes cd L, v.2.2.length = cd.nSamples)
    (hj : j < cd.nSamples)
    (hex : ∃ p ∈ cd.geneIds.zip cd.counts,
      lookupLen p.1 L = none ∧ 0 < p.2.getD j 0) :
    ∃ rowsF rowsR,
      calcExpressionValues .FPKM cd L =
        .ok ((matchedGenes cd L).map fun v => v.1, rowsF) ∧
      fpkmRetainedOnly cd L =
        .ok ((matchedGenes cd L).map fun v => v.1, rowsR) ∧
      ∀ (i : Nat) (hi : i < (matchedGenes cd L).length),
        0 < ((matchedGenes cd L).get ⟨i, hi⟩).2.1 →
        0 < ((matchedGenes cd L).get ⟨i, hi⟩).2.2.getD j 0 →
        ∃ qF qR,
          (rowsF.getD i []).getD j (.fin 0) = .fin qF ∧
          (rowsR.getD i []).getD j (.fin 0) = .fin qR ∧ qF < qR := by
  set valid := matchedGenes cd L with hvalid
  set n := cd.nSamples with hn
  -- per-sample totals over all rows (T) and over the retained rows (Tr)
  set T := (cd.counts.map fun r => r.getD j 0).sum with hTdef
  set Tr := ((valid.map fun v => v.2.2).map fun r => r.getD j 0).sum with hTrdef
  have hvrows : ∀ v ∈ valid, v.2.2 ∈ cd.counts := by
    intro v hv
    rw [hvalid, matchedGenes, List.mem_filterMap] at hv
    obtain ⟨gr, hgr, hfg⟩ := hv
    obtain ⟨g1, row⟩ := gr
    cases hlk : lookupLen g1 L with
    | none => rw [hlk] at hfg; simp at hfg
    | some len =>
      rw [hlk] at hfg
      simp only [Option.some.injEq] at hfg
      subst hfg
      exact (List.of_mem_zip hgr).2
  -- Tr is the keep-part of the split of T over the zipped rows
  have hTr_eq : Tr = (((cd.geneIds.zip cd.counts).filter
      fun p => (lookupLen p.1 L).isSome).map fun p => p.2.getD j 0).sum := by
    rw [hTrdef, List.map_map, hvalid, matchedGenes]
    exact sum_matched_rows L j (cd.geneIds.zip cd.counts)
  have hT_eq : T = ((cd.geneIds.zip cd.counts).map fun p => p.2.getD j 0).sum := by
    have hsnd : (cd.geneIds.zip cd.counts).map Prod.snd = cd.counts :=
      List.map_snd_zip cd.geneIds cd.counts (le_of_eq hleq.symm)
    conv_lhs => rw [hTdef, ← hsnd, List.map_map]
    congr 1
  have hdrop_pos : 0 < (((cd.geneIds.zip cd.counts).filter
      fun p => !(lookupLen p.1 L).isSome).map fun p => p.2.getD j 0).sum := by
    obtain ⟨p0, hp0, hlk0, hpos0⟩ := hex
    have hp0f : p0 ∈ (cd.geneIds.zip cd.counts).filter
        fun p => !(lookupLen p.1 L).isSome := by
      rw [List.mem_filter]
      exact ⟨hp0, by simp [hlk0]⟩
    have hval : p0.2.getD j 0 ∈ ((cd.geneIds.zip cd.counts).filter
        fun p => !(lookupLen p.1 L).isSome).map fun p => p.2.getD j 0 :=
      List.mem_map_of_mem _ hp0f
    have hall : ∀ x ∈ ((cd.geneIds.zip cd.counts).filter
        fun p => !(lookupLen p.1 L).isSome).map fun p => p.2.getD j 0, 0 ≤ x := by
      intro x hx
      rw [List.mem_map] at hx
      obtain ⟨p, hp, rfl⟩ := hx
      obtain ⟨a, b⟩ := p
      have hzb : (a, b) ∈ cd.geneIds.zip cd.counts := (List.mem_filter.mp hp).1
      exact getD_nonneg_of _ _ (hnonneg _ (List.of_mem_zip hzb).2)
    exact lt_of_lt_of_le hpos0 (List.single_le_sum hall _ hval)
  have hTT : Tr < T := by
    have hsplit := list_sum_filter_split
      (fun p => (lookupLen p.1 L).isSome)
      (fun p => p.2.getD j 0) (cd.geneIds.zip cd.counts)
    rw [hT_eq, ← hsplit, ← hTr_eq]
    linarith [hdrop_pos]
  set denF := (qColSums n cd.counts).map fun t => PVal.fin (t / 1000000) with hdenF
  set denR := (qColSums n (valid.map fun v => v.2.2)).map
    fun t => PVal.fin (t / 1000000) with hdenR
  have hdFlen : denF.length = n := by simp [hdenF, qColSums]
  have hdRlen : denR.length = n := by simp [hdenR, qColSums]
  have hdenFj : denF[j]? = some (.fin (T / 1000000)) := by
    rw [hdenF, List.getElem?_map]
    have h1 : (qColSums n cd.counts)[j]? = some T := by
      unfold qColSums
      rw [List.getElem?_map, List.getElem?_range hj]
      simp [hTdef]
    rw [h1]
    simp
  have hdenRj : denR[j]? = some (.fin (Tr / 1000000)) := by
    rw [hdenR, List.getElem?_map]
    have h1 : (qColSums n (valid.map fun v => v.2.2))[j]? = some Tr := by
      unfold qColSums
      rw [List.getElem?_map, List.getElem?_range hj]
      simp [hTrdef]
    rw [h1]
    simp
  -- generic extraction of the (i, j) entry of a column-divided matrix
  have hentry : ∀ (i : Nat) (hi : i < valid.length), ∀ (dn : List PVal) (t : ℚ),
      dn.length = n → dn[j]? = some (.fin (t / 1000000)) → t ≠ 0 →
      0 < (valid.get ⟨i, hi⟩).2.1 →
      ((divCols (rpkRows valid) dn).getD i []).getD j (.fin 0) =
        .fin (((valid.get ⟨i, hi⟩).2.2.getD j 0 /
          ((valid.get ⟨i, hi⟩).2.1 / 1000)) / (t / 1000000)) := by
    intro i hi dn t hdl hdj ht hpos
    have hvmem : valid.get ⟨i, hi⟩ ∈ valid := List.get_mem valid i hi
    have hvl : (valid.get ⟨i, hi⟩).2.2.length = n := hrow _ hvmem
    have hlennz : (valid.get ⟨i, hi⟩).2.1 / 1000 ≠ 0 := by positivity
    have hrowsi : (divCols (rpkRows valid) dn)[i]? =
        some (List.zipWith pdiv ((valid.get ⟨i, hi⟩).2.2.map
          fun cc => pdiv (.fin cc) (.fin ((valid.get ⟨i, hi⟩).2.1 / 1000))) dn) := by
      unfold divCols rpkRows
      rw [List.map_map, List.getElem?_map, List.getElem?_eq_getElem hi]
      simp only [Option.map_some']
      rfl
    simp only [List.getD_eq_getElem?_getD]
    rw [hrowsi, Option.getD_some]
    have hzln : (List.zipWith pdiv ((valid.get ⟨i, hi⟩).2.2.map
        fun cc => pdiv (.fin cc) (.fin ((valid.get ⟨i, hi⟩).2.1 / 1000))) dn).length
        = n := by
      rw [List.length_zipWith, List.length_map, hvl, hdl, Nat.min_self]
    have hjz : j < (List.zipWith pdiv ((valid.get ⟨i, hi⟩).2.2.map
        fun cc => pdiv (.fin cc) (.fin ((valid.get ⟨i, hi⟩).2.1 / 1000))) dn).length := by
      rw [hzln]
      exact hj
    rw [List.getElem?_eq_getElem hjz, Option.getD_some,
      List.getElem_zipWith, List.getElem_map]
    have hdg : ∀ hb : j < dn.length, dn[j] = PVal.fin (t / 1000000) := by
      intro hb
      have h2 := hdj
      rw [List.getElem?_eq_getElem hb] at h2
      exact Option.some.inj h2
    rw [hdg, pdiv_fin_of_ne _ _ hlennz,
      pdiv_fin_of_ne _ _ (div_ne_zero ht (by norm_num))]
    have hjv : j < (valid.get ⟨i, hi⟩).2.2.length := by rw [hvl]; exact hj
    rw [List.getElem?_eq_getElem hjv]
    simp
  refine ⟨divCols (rpkRows valid) denF, divCols (rpkRows valid) denR, ?_, ?_, ?_⟩
  · unfold calcExpressionValues
    rw [← hvalid, ← hn]
    rw [if_neg (by simpa using hne)]
  · unfold fpkmRetainedOnly
    rw [← hvalid, ← hn]
    rw [if_neg (by simpa using hne)]
  · intro i hi hpos hcount
    have hvmem : valid.get ⟨i, hi⟩ ∈ valid := List.get_mem valid i hi
    have hTrpos : 0 < Tr := by
      have hcm : (valid.get ⟨i, hi⟩).2.2.getD j 0 ∈
          (valid.map fun v => v.2.2).map fun r => r.getD j 0 := by
        rw [List.map_map]
        exact List.mem_map_of_mem _ hvmem
      have hall : ∀ x ∈ (valid.map fun v => v.2.2).map fun r => r.getD j 0,
          0 ≤ x := by
        intro x hx
        rw [List.map_map, List.mem_map] at hx
        obtain ⟨w, hw, rfl⟩ := hx
        exact getD_nonneg_of _ _ (hnonneg _ (hvrows w hw))
      rw [hTrdef]
      exact lt_of_lt_of_le hcount (List.single_le_sum hall _ hcm)
    have hTpos : 0 < T := lt_trans hTrpos hTT
    refine ⟨((valid.get ⟨i, hi⟩).2.2.getD j 0 /
        ((valid.get ⟨i, hi⟩).2.1 / 1000)) / (T / 1000000),
      ((valid.get ⟨i, hi⟩).2.2.getD j 0 /
        ((valid.get ⟨i, hi⟩).2.1 / 1000)) / (Tr / 1000000),
      hentry i hi denF T hdFlen hdenFj (ne_of_gt hTpos) hpos,
      hentry i hi denR Tr hdRlen hdenRj (ne_of_gt hTrpos) hpos, ?_⟩
    have hrpk : 0 < (valid.get ⟨i, hi⟩).2.2.getD j 0 /
        ((valid.get ⟨i, hi⟩).2.1 / 1000) :=
      div_pos hcount (div_pos hpos (by norm_num))
    have h16 : Tr / 1000000 < T / 1000000 := by linarith
    exact div_lt_div_of_pos_left hrpk (div_pos hTrpos (by norm_num)) h16

/-- **C9 counterexample** — the unrestricted claim fails: gene G3 is
counted (50 reads) but absent from the length table, so the claim's
hypothesis holds, yet retained gene G1 has count 0 and its FPKM value
equals (not exceeds) the retained-only value — both are 0 — so not every
FPKM value of the sample is strictly smaller. -/
theorem fpkm_strict_counterexample :
    calcExpressionValues .FPKM ⟨1, ["G1", "G2", "G3"], [[0], [100], [50]]⟩
        [("G1", 1000), ("G2", 1000)] =
      .ok (["G1", "G2"], [[.fin 0], [.fin (2000000 / 3)]]) ∧
    fpkmRetainedOnly ⟨1, ["G1", "G2", "G3"], [[0], [100], [50]]⟩
        [("G1", 1000), ("G2", 1000)] =
      .ok (["G1", "G2"], [[.fin 0], [.fin 1000000]]) ∧
    lookupLen "G3" [("G1", (1000 : ℚ)), ("G2", 1000)] = none ∧
    ¬∃ qF qR : ℚ,
      (([[PVal.fin 0], [PVal.fin (2000000 / 3)]].getD 0 []).getD 0 (.fin 0) = .fin qF ∧
       ([[PVal.fin 0], [PVal.fin 1000000]].getD 0 []).getD 0 (.fin 0) = .fin qR ∧
       qF < qR) := by
  have hm : matchedGenes ⟨1, ["G1", "G2", "G3"], [[0], [100], [50]]⟩
      [("G1", 1000), ("G2", 1000)] =
      [("G1", (1000 : ℚ), [(0 : ℚ)]), ("G2", 1000, [100])] := by
    simp [matchedGenes, lookupLen, List.filterMap_cons]
  refine ⟨?_, ?_, by simp [lookupLen], ?_⟩
  · simp only [calcExpressionValues, hm]
    norm_num [rpkRows, pdiv, qColSums, psum, padd, divCols, List.range_succ,
      List.zipWith]
  · simp only [fpkmRetainedOnly, hm]
    norm_num [rpkRows, pdiv, qColSums, psum, padd, divCols, List.range_succ,
      List.zipWith]
  · rintro ⟨qF, qR, h1, h2, h3⟩
    simp only [List.getD_cons_zero] at h1 h2
    cases h1
    cases h2
    exact lt_irrefl _ h3

/-- Witness for C9 (amended): retained gene G1 (count 100), dropped gene
G2 (count 50, no length); the code FPKM for G1 uses total 150 and is
strictly below the retained-only FPKM, which uses total 100. -/
theorem fpkm_denominator_scope_witness :
    ∃ rowsF rowsR,
      calcExpressionValues .FPKM ⟨1, ["G1", "G2"], [[100], [50]]⟩ [("G1", 1000)] =
        .ok ((matchedGenes ⟨1, ["G1", "G2"], [[100], [50]]⟩
          [("G1", 1000)]).map fun v => v.1, rowsF) ∧
      fpkmRetainedOnly ⟨1, ["G1", "G2"], [[100], [50]]⟩ [("G1", 1000)] =
        .ok ((matchedGenes ⟨1, ["G1", "G2"], [[100], [50]]⟩
          [("G1", 1000)]).map fun v => v.1, rowsR) ∧
      ∀ (i : Nat) (hi : i < (matchedGenes ⟨1, ["G1", "G2"], [[100], [50]]⟩
          [("G1", 1000)]).length),
        0 < ((matchedGenes ⟨1, ["G1", "G2"], [[100], [50]]⟩
          [("G1", 1000)]).get ⟨i, hi⟩).2.1 →
        0 < ((matchedGenes ⟨1, ["G1", "G2"], [[100], [50]]⟩
          [("G1", 1000)]).get ⟨i, hi⟩).2.2.getD 0 0 →
        ∃ qF qR,
          (rowsF.getD i []).getD 0 (.fin 0) = .fin qF ∧
          (rowsR.getD i []).getD 0 (.fin 0) = .fin qR ∧ qF < qR :=
  fpkm_denominator_scope ⟨1, ["G1", "G2"], [[100], [50]]⟩ [("G1", 1000)] 0
    (by
      intro r hr c hc
      simp only [List.mem_cons, List.not_mem_nil, or_false] at hr
      rcases hr with rfl | rfl <;> simp only [List.mem_cons, List.not_mem_nil,
        or_false] at hc <;> rw [hc] <;> norm_num)
    rfl
    (by simp [matchedGenes, lookupLen, List.filterMap_cons])
    (by
      intro v hv
      have hv2 : v = ("G1", (1000 : ℚ), [(100 : ℚ)]) := by
        simpa [matchedGenes, lookupLen, List.filterMap_cons] using hv
      simp [hv2])
    (by norm_num)
    ⟨("G2", [50]), by simp [List.zip], by simp [lookupLen], by norm_num [List.getD]⟩


/-- **C1** — resume correctness: from a checkpoint with
`{hisat2_align: true, feature_counts: false, pydeseq2_analysis: false}`,
the run never invokes the aligner (whatever the stage outcomes); when the
remaining stages succeed it executes exactly CountStage then
DiffExpressionStage, in that order; and in general, on a run whose
invoked stages all succeed, the stages executed are exactly those whose
checkpoint flag was false at run start, in the fixed stage order (a stage
is skipped iff its flag is true). -/
theorem resume_correctness (cp : Checkpoint)
    (h1 : cpGet cp (stageKey .align) = true)
    (h2 : cpGet cp (stageKey .count) = false)
    (h3 : cpGet cp (stageKey .diffexpr) = false) :
    (∀ ok : Stage → Bool, Stage.align ∉ executedStages (runPipeline cp ok).2) ∧
    (∀ ok : Stage → Bool, (∀ s, ok s = true) →
      executedStages (runPipeline cp ok).2 = [Stage.count, Stage.diffexpr]) ∧
    (∀ (cp' : Checkpoint) (ok : Stage → Bool), (∀ s, ok s = true) →
      executedStages (runPipeline cp' ok).2 =
        stageOrder.filter fun s => !cpGet cp' (stageKey s)) := by
  refine ⟨fun ok => align_not_executed cp ok h1, fun ok hok => ?_,
    fun cp' ok hok => executed_of_all_ok cp' ok hok⟩
  rw [executed_of_all_ok cp ok hok]
  simp [stageOrder, List.filter, h1, h2, h3]

/-- Witness for C1 at the concrete checkpoint `{hisat2_align: true}`. -/
theorem resume_correctness_witness :
    (∀ ok : Stage → Bool,
      Stage.align ∉ executedStages (runPipeline [("hisat2_align", true)] ok).2) ∧
    (∀ ok : Stage → Bool, (∀ s, ok s = true) →
      executedStages (runPipeline [("hisat2_align", true)] ok).2 =
        [Stage.count, Stage.diffexpr]) ∧
    (∀ (cp' : Checkpoint) (ok : Stage → Bool), (∀ s, ok s = true) →
      executedStages (runPipeline cp' ok).2 =
        stageOrder.filter fun s => !cpGet cp' (stageKey s)) :=
  resume_correctness [("hisat2_align", true)] (by decide) (by decide) (by decide)

/-- **C4** — stage-failure atomicity of the checkpoint: on every run,
the final persisted checkpoint is exactly the last one written (the
initial one when nothing was written); when a stage fails, the failure
event is the last event of the run (the engine stopped immediately after
surfacing it) and the flags of the failed stage and of every later stage
still read as they did at run start; and each successfully invoked stage
is immediately followed by a persist of a checkpoint in which that
stage's flag is true — before any next stage begins. -/
theorem stage_failure_atomicity (cp : Checkpoint) (ok : Stage → Bool) :
    (runPipeline cp ok).1 = lastPersisted (runPipeline cp ok).2 cp ∧
    (∀ s : Stage, RunEvent.fail s ∈ (runPipeline cp ok).2 →
      (runPipeline cp ok).2.getLast? = some (.fail s) ∧
      ∀ t : Stage, stageIdx s ≤ stageIdx t →
        cpGet (runPipeline cp ok).1 (stageKey t) = cpGet cp (stageKey t)) ∧
    (∀ (i : Nat) (s : Stage), (runPipeline cp ok).2[i]? = some (.invoke s) →
      ok s = true →
      ∃ cp', (runPipeline cp ok).2[i + 1]? = some (.persist cp') ∧
        cpGet cp' (stageKey s) = true) :=
  ⟨runPipeline_final_eq_lastPersisted cp ok,
   fun s h => ⟨runPipeline_fail_getLast cp ok s h,
     fun t ht => runPipeline_fail_flags cp ok s h t ht⟩,
   fun i s hi hoks => runPipeline_persist_after_invoke cp ok i s hi hoks⟩

/-- Witness for C4: empty starting checkpoint, aligner succeeds, counting
fails — the fail event ends the trace and no flag at or after the failed
stage was persisted. -/
theorem stage_failure_atomicity_witness :
    (runPipeline [] fun s => decide (s = Stage.align)).2.getLast? =
      some (.fail .count) ∧
    ∀ t : Stage, stageIdx .count ≤ stageIdx t →
      cpGet (runPipeline [] fun s => decide (s = Stage.align)).1 (stageKey t) =
        cpGet [] (stageKey t) :=
  (stage_failure_atomicity [] fun s => decide (s = Stage.align)).2.1 .count
    (by decide)

/-- **C8** — AlignStage failure/cleanup contract: when the samples before
some sample all succeed and that sample's aligner or sort/convert call
exits non-zero, the stage returns failure and its trace is exactly the
events of the earlier samples followed by the failing sample's invocation
and error — so the alignment call is issued precisely for the earlier
samples and the failing one, never for a later sample; and when every
sample's two tool calls exit zero the stage succeeds whatever the
delete outcomes were (a failed delete contributes only a warning event). -/
theorem align_stage_failure_contract (pre : List (String × SampleOutcome))
    (n : String) (r : SampleOutcome) (post : List (String × SampleOutcome))
    (hpre : ∀ p ∈ pre, p.2.alignExit = 0 ∧ p.2.sortExit = 0)
    (hfail : r.alignExit ≠ 0 ∨ r.sortExit ≠ 0) :
    hisat2Align (pre ++ (n, r) :: post) =
      (false, (pre.map sampleOkEvents).flatten ++ sampleFailEvents (n, r)) ∧
    alignedNames (hisat2Align (pre ++ (n, r) :: post)).2 = pre.map Prod.fst ++ [n] ∧
    (∀ samples : List (String × SampleOutcome),
      (∀ p ∈ samples, p.2.alignExit = 0 ∧ p.2.sortExit = 0) →
      (hisat2Align samples).1 = true) := by
  have hmain : hisat2Align (pre ++ (n, r) :: post) =
      (false, (pre.map sampleOkEvents).flatten ++ sampleFailEvents (n, r)) := by
    induction pre with
    | nil =>
      by_cases ha : r.alignExit ≠ 0
      · simp [hisat2Align, ha, sampleFailEvents]
      · push_neg at ha
        have hs : r.sortExit ≠ 0 := by
          rcases hfail with h | h
          · exact absurd ha h
          · exact h
        simp [hisat2Align, ha, hs, sampleFailEvents]
    | cons p rest ih =>
      obtain ⟨m, q⟩ := p
      have h1 : q.alignExit = 0 := (hpre (m, q) (by simp)).1
      have h2 : q.sortExit = 0 := (hpre (m, q) (by simp)).2
      have hrest := ih fun u hu => hpre u (by simp [hu])
      simp [hisat2Align, h1, h2, hrest, sampleOkEvents]
  refine ⟨hmain, ?_, ?_⟩
  · rw [hmain]
    simp [alignedNames_append, alignedNames_ok_join, alignedNames_sampleFailEvents]
  · intro samples h
    rw [hisat2Align_all_ok samples h]

/-- Witness for C8 at a concrete input: sample s1 succeeds (with a failed
delete), s2's aligner exits 1, s3 follows in the list. -/
theorem align_stage_failure_contract_witness :
    hisat2Align [("s1", ⟨0, 0, false⟩), ("s2", ⟨1, 0, true⟩), ("s3", ⟨0, 0, true⟩)] =
      (false, ([("s1", (⟨0, 0, false⟩ : SampleOutcome))].map sampleOkEvents).flatten ++
        sampleFailEvents ("s2", ⟨1, 0, true⟩)) ∧
    alignedNames (hisat2Align [("s1", ⟨0, 0, false⟩), ("s2", ⟨1, 0, true⟩),
      ("s3", ⟨0, 0, true⟩)]).2 =
        [("s1", (⟨0, 0, false⟩ : SampleOutcome))].map Prod.fst ++ ["s2"] ∧
    (∀ samples : List (String × SampleOutcome),
      (∀ p ∈ samples, p.2.alignExit = 0 ∧ p.2.sortExit = 0) →
      (hisat2Align samples).1 = true) :=
  align_stage_failure_contract [("s1", ⟨0, 0, false⟩)] "s2" ⟨1, 0, true⟩
    [("s3", ⟨0, 0, true⟩)] (by decide) (by decide)

/-- **C5 (amended)** — comparison enumeration over the materialised
condition list: for any duplicate-free condition list (as produced by
`list(set(...))`), the nested loops emit no self-pair, emit each unordered
pair of distinct conditions exactly once (in one of its two orientations),
and emit `C(n,2)` pairs in total.  The output is a function of the LIST
order; the claim's reproducibility-across-runs part fails because the
list order is the Python set's iteration order (see the counterexample
`enumerate_pairs_order_dependent`). -/
theorem enumerate_pairs_complete (cs : List String) (hnd : cs.Nodup) :
    (∀ p ∈ enumeratePairs cs, p.1 ≠ p.2 ∧ p.1 ∈ cs ∧ p.2 ∈ cs) ∧
    (∀ a b : String, a ∈ cs → b ∈ cs → a ≠ b →
      ((enumeratePairs cs).countP fun p => decide (p = (a, b) ∨ p = (b, a))) = 1) ∧
    (enumeratePairs cs).length = cs.length.choose 2 := by
  induction cs with
  | nil => simp [enumeratePairs]
  | cons c rest ih =>
    obtain ⟨hc, hndr⟩ := List.nodup_cons.mp hnd
    obtain ⟨ih1, ih2, ih3⟩ := ih hndr
    refine ⟨?_, ?_, ?_⟩
    · intro p hp
      simp only [enumeratePairs, List.mem_append, List.mem_map] at hp
      rcases hp with ⟨d, hd, rfl⟩ | hp
      · refine ⟨?_, by simp, by simp [hd]⟩
        intro h
        have hcd : c = d := h
        exact hc (hcd ▸ hd)
      · obtain ⟨h1, h2⟩ := mem_enumeratePairs rest p hp
        exact ⟨(ih1 p hp).1, by simp [h1], by simp [h2]⟩
    · intro a b ha hb hab
      simp only [enumeratePairs, List.countP_append, List.countP_map]
      by_cases hac : a = c
      · subst hac
        have hbr : b ∈ rest := by
          rcases List.mem_cons.mp hb with h | h
          · exact absurd h.symm hab
          · exact h
        have hmap : List.countP
            ((fun p => decide (p = (a, b) ∨ p = (b, a))) ∘ fun d => (a, d)) rest = 1 := by
          have hcg : ∀ d ∈ rest,
              (((fun p => decide (p = (a, b) ∨ p = (b, a))) ∘ fun d => (a, d)) d = true) ↔
                ((fun d => decide (d = b)) d = true) := by
            intro d hd
            simp [Function.comp, Prod.ext_iff, hab]
          rw [List.countP_congr hcg, countP_string_eq]
          exact List.count_eq_one_of_mem hndr hbr
        have hrec : List.countP
            (fun p => decide (p = (a, b) ∨ p = (b, a))) (enumeratePairs rest) = 0 := by
          rw [List.countP_eq_zero]
          intro p hp
          obtain ⟨h1, h2⟩ := mem_enumeratePairs rest p hp
          simp only [decide_eq_true_eq, not_or]
          constructor
          · intro h; apply hc; rw [h] at h1; exact h1
          · intro h; apply hc; rw [h] at h2; exact h2
        rw [hmap, hrec]
      · by_cases hbc : b = c
        · subst hbc
          have har : a ∈ rest := by
            rcases List.mem_cons.mp ha with h | h
            · exact absurd h hac
            · exact h
          have hba : ¬b = a := fun h => hac h.symm
          have hmap : List.countP
              ((fun p => decide (p = (a, b) ∨ p = (b, a))) ∘ fun d => (b, d)) rest = 1 := by
            have hcg : ∀ d ∈ rest,
                (((fun p => decide (p = (a, b) ∨ p = (b, a))) ∘ fun d => (b, d)) d = true) ↔
                  ((fun d => decide (d = a)) d = true) := by
              intro d hd
              simp [Function.comp, Prod.ext_iff, hba]
            rw [List.countP_congr hcg, countP_string_eq]
            exact List.count_eq_one_of_mem hndr har
          have hrec : List.countP
              (fun p => decide (p = (a, b) ∨ p = (b, a))) (enumeratePairs rest) = 0 := by
            rw [List.countP_eq_zero]
            intro p hp
            obtain ⟨h1, h2⟩ := mem_enumeratePairs rest p hp
            simp only [decide_eq_true_eq, not_or]
            constructor
            · intro h; apply hc; rw [h] at h2; exact h2
            · intro h; apply hc; rw [h] at h1; exact h1
          rw [hmap, hrec]
        · have har : a ∈ rest := by
            rcases List.mem_cons.mp ha with h | h
            · exact absurd h hac
            · exact h
          have hbr : b ∈ rest := by
            rcases List.mem_cons.mp hb with h | h
            · exact absurd h hbc
            · exact h
          have hca : ¬c = a := fun h => hac h.symm
          have hcb : ¬c = b := fun h => hbc h.symm
          have hmap : List.countP
              ((fun p => decide (p = (a, b) ∨ p = (b, a))) ∘ fun d => (c, d)) rest = 0 := by
            rw [List.countP_eq_zero]
            intro d hd
            simp [Function.comp, Prod.ext_iff, hca, hcb]
          rw [hmap, ih2 a b har hbr hab]
    · simp only [enumeratePairs, List.length_append, List.length_map, ih3,
        List.length_cons]
      cases hk : rest.length with
      | zero => simp
      | succ m =>
        simp only [Nat.choose_succ_succ, Nat.choose_one_right, Nat.choose_zero_right]
        omega

/-- Witness for C5 (amended) at the condition list `["X", "Y", "Z"]`. -/
theorem enumerate_pairs_complete_witness :
    (∀ p ∈ enumeratePairs ["X", "Y", "Z"], p.1 ≠ p.2 ∧ p.1 ∈ ["X", "Y", "Z"] ∧
      p.2 ∈ ["X", "Y", "Z"]) ∧
    (∀ a b : String, a ∈ ["X", "Y", "Z"] → b ∈ ["X", "Y", "Z"] → a ≠ b →
      ((enumeratePairs ["X", "Y", "Z"]).countP
        fun p => decide (p = (a, b) ∨ p = (b, a))) = 1) ∧
    (enumeratePairs ["X", "Y", "Z"]).length =
      (["X", "Y", "Z"] : List String).length.choose 2 :=
  enumerate_pairs_complete ["X", "Y", "Z"] (by decide)

/-- **C5 counterexample** — the pair list is not a function of the
condition SET: the two orderings of the same two-element condition set
(both orders arise from Python's `list(set(...))`, whose iteration order
is not specified across interpreter runs) yield different outputs, so the
enumeration is not reproducible across runs on the same condition set. -/
theorem enumerate_pairs_order_dependent :
    (["X", "Y"] : List String).toFinset = (["Y", "X"] : List String).toFinset ∧
    enumeratePairs ["X", "Y"] ≠ enumeratePairs ["Y", "X"] := by
  constructor
  · decide
  · decide

/-- **C10** — checkpoint-read fallback: a missing checkpoint file and a
checkpoint file whose parse raises both make `load_checkpoint` return the
empty map, under which every stage flag reads `false`, and the subsequent
run begins by invoking the first stage (the aligner); neither situation
aborts the run. -/
theorem checkpoint_load_fallback :
    loadCheckpoint none = [] ∧
    (∀ e, loadCheckpoint (some (.error e)) = []) ∧
    (∀ s : Stage, cpGet (loadCheckpoint none) (stageKey s) = false) ∧
    (∀ ok : Stage → Bool, ∃ rest,
      (runPipeline (loadCheckpoint none) ok).2 = RunEvent.invoke .align :: rest) := by
  refine ⟨rfl, fun e => rfl, fun s => by cases s <;> rfl, fun ok => ?_⟩
  cases ha : ok .align <;>
    cases hc : ok .count <;>
      cases hd : ok .diffexpr <;>
        simp [runPipeline, runStage, cpGet, cpSet, loadCheckpoint, stageKey,
          cpGet_cpSet_self, cpGet_cpSet_ne, ha, hc, hd]

/-- **C3** — the code, not the claim: on a sample whose total depth is
zero (here the single sample has count 0 for the only gene, so both the
total RPK and the total raw count vanish), `_calculate_expression_values`
raises no error for either TPM or FPKM; it silently returns a `NaN` cell
(pandas `0.0 / 0.0`).  This contradicts the spec's requirement that a
zero per-sample total be surfaced as an explicit NormalizationError. -/
theorem zero_depth_silent_nan :
    calcExpressionValues .TPM ⟨1, ["g"], [[0]]⟩ [("g", 1000)] =
      .ok (["g"], [[.nan]]) ∧
    calcExpressionValues .FPKM ⟨1, ["g"], [[0]]⟩ [("g", 1000)] =
      .ok (["g"], [[.nan]]) := by
  constructor <;>
    norm_num [calcExpressionValues, matchedGenes, rpkRows, colSums, colGet,
      qColSums, divCols, psum, padd, pdiv, lookupLen, List.filterMap_cons,
      List.zipWith]

/-- The TPM rows of the concrete scenario of C7. -/
def tpmRowsC7 : List (List PVal) :=
  [[.fin 500000, .fin (1250000 / 3)],
   [.fin 500000, .fin (1250000 / 3)],
   [.fin 0, .fin (500000 / 3)]]

/-- **C7** — concrete TPM scenario: genes A,B,C with lengths
1000/2000/500 bp, counts sample1 = {A:100,B:200,C:0} and
sample2 = {A:50,B:100,C:10} give TPM(sample1) = {A:500000,B:500000,C:0}
and TPM(sample2) = {A:1250000/3, B:1250000/3, C:500000/3}
(= 50/(120/1e6), 50/(120/1e6), 20/(120/1e6)), and the zero-row filter
drops no row of this table. -/
theorem tpm_concrete_scenario :
    calcExpressionValues .TPM ⟨2, ["A", "B", "C"], [[100, 50], [200, 100], [0, 10]]⟩
        [("A", 1000), ("B", 2000), ("C", 500)] = .ok (["A", "B", "C"], tpmRowsC7) ∧
    (1250000 / 3 : ℚ) = 50 / (120 / 1000000) ∧
    (500000 / 3 : ℚ) = 20 / (120 / 1000000) ∧
    filterZeroRows ["A", "B", "C"] tpmRowsC7 = (["A", "B", "C"], tpmRowsC7) := by
  refine ⟨?_, by norm_num, by norm_num, ?_⟩
  · have hm : matchedGenes ⟨2, ["A", "B", "C"], [[100, 50], [200, 100], [0, 10]]⟩
        [("A", 1000), ("B", 2000), ("C", 500)] =
        [("A", (1000 : ℚ), [(100 : ℚ), 50]), ("B", 2000, [200, 100]),
         ("C", 500, [0, 10])] := by
      simp [matchedGenes, lookupLen, List.filterMap_cons]
    simp only [calcExpressionValues, hm]
    norm_num [rpkRows, pdiv, colSums, colGet, psum, padd, divCols, tpmRowsC7,
      List.range_succ, List.zipWith]
  · norm_num [filterZeroRows, tpmRowsC7, zeroish, List.filter]

end YRTrans
